import Mathlib

/-!
# Verification of the aiassisted installer/updater

A shallow embedding of the Python sources under `src/python/aiassisted/`
(`manifest.py`, `installer.py`, `cli.py`).  Python strings are modelled as
`List Char`; Python dicts (`Manifest.files`, directory trees) as association
lists with insertion-order update semantics; SHA-256 (`hashlib.sha256`) as an
abstract function parameter; and the network downloader as an oracle record
mapping each addressable remote resource to an optional content
(`none` = download failure).
-/

namespace Aiassisted

/-- Python `str`, modelled as a list of characters. -/
abbrev Str := List Char

/-- One `filepath -> hash` entry of `Manifest.files`. -/
abbrev Entry := Str × Str

/-- A directory tree, flattened to an association list from relative path to
file content (`installer.py` only ever reads and writes individual files under
a fixed root). -/
abbrev FS := List (Str × Str)

/-- Characters removed by Python's `str.strip()` (the ASCII whitespace set). -/
def pyIsSpace (c : Char) : Bool :=
  c = ' ' || c = '\t' || c = '\n' || c = '\r' || c = '\x0b' || c = '\x0c'

/-- Python `str.strip()`: drop whitespace from both ends. -/
def pyStrip (s : Str) : Str :=
  ((s.dropWhile pyIsSpace).reverse.dropWhile pyIsSpace).reverse

/-- Python `str.split("\n")`: split on newlines, keeping empty pieces
(`"".split("\n") == [""]`). -/
def splitNl : Str → List Str
  | [] => [[]]
  | c :: rest =>
    if c = '\n' then [] :: splitNl rest
    else
      match splitNl rest with
      | [] => [[c]]
      | l :: ls => (c :: l) :: ls

/-- Python dict assignment `d[k] = v`: update the value in place if the key is
present, else append the new binding at the end (insertion order). -/
def dictInsert : List (Str × Str) → Str → Str → List (Str × Str)
  | [], k, v => [(k, v)]
  | (k', v') :: rest, k, v =>
    if k' = k then (k, v) :: rest else (k', v') :: dictInsert rest k v

/-- Python `d.get(k)` / `k in d`: first binding of the key, if any. -/
def dictGet : List (Str × Str) → Str → Option Str
  | [], _ => none
  | (k', v') :: rest, k => if k' = k then some v' else dictGet rest k

/-! ## manifest.py -/

/-- One iteration of the parsing loop shared by `Manifest.load_from_content`
and `Manifest.load_from_file` (`manifest.py` lines 76-85 and 104-113):
strip the line, skip it when empty or starting with `#`, and otherwise, when it
contains a `:`, split at the first `:` and store the binding in the dict. -/
def parseLine (m : List Entry) (rawLine : Str) : List Entry :=
  let line := pyStrip rawLine
  if line = [] then m
  else if line.head? = some '#' then m
  else if line.contains ':' then
    dictInsert m (line.takeWhile (fun c => c ≠ ':'))
      ((line.dropWhile (fun c => c ≠ ':')).tail)
  else m

/-- `Manifest.load_from_content` (`manifest.py` lines 94-120): fold the parsing
loop over the `\n`-split lines of the content, starting from the manifest's
current `files` dict (`init`, empty for a fresh `Manifest`).  The Python
method's `try` body cannot raise for a `str` argument, so the method always
returns `True`; the embedding returns the resulting `files` dict. -/
def load_from_content (content : Str) (init : List Entry) : List Entry :=
  (splitNl content).foldl parseLine init

/-- `Manifest.verify_checksum` (`manifest.py` lines 39-60) over a staging
tree `fs` and hash function `sha`: `false` when the file does not exist,
otherwise compare the computed digest of its content with the expected one.
This form is used inside the download loops (`fetchAll`, `fetchChanged`),
where every entry of `fs` is a readable regular file the process has just
written, so the `open()` call inside `calculate_sha256` cannot fail there;
the uncaught `open()` failure path over arbitrary disk state is modelled
separately by `verify_checksum_disk`. -/
def verify_checksum (sha : Str → Str) (fs : FS) (p : Str) (expected : Str) :
    Bool :=
  match dictGet fs p with
  | none => false
  | some content => sha content = expected

/-- A file-system entry as `pathlib`/`open()` see it in
`Manifest.verify_checksum`: a readable regular file with its byte content, or
a present entry that `open(path, "rb")` cannot read — a directory
(`IsADirectoryError`), a file without read permission (`PermissionError`), or
an entry that vanishes between `exists()` and `open()`. -/
inductive FsNode where
  | readable : Str → FsNode
  | unreadable : FsNode

/-- Lookup in a disk tree holding `FsNode` entries. -/
def fsLookup : List (Str × FsNode) → Str → Option FsNode
  | [], _ => none
  | (k, n) :: rest, p => if k = p then some n else fsLookup rest p

/-- `pathlib.Path.exists()` as used by `verify_checksum` (`manifest.py` line
49): true for any present entry, a directory or unreadable file included. -/
def pathExists (fs : List (Str × FsNode)) (p : Str) : Bool :=
  (fsLookup fs p).isSome

/-- `Manifest.calculate_sha256` (`manifest.py` lines 23-37): open the file
and hash its bytes in chunks.  `open()` raises — modelled as `none` — when
the path is missing or names an entry that is not a readable regular file;
the method catches nothing. -/
def calculate_sha256 (sha : Str → Str) (fs : List (Str × FsNode)) (p : Str) :
    Option Str :=
  match fsLookup fs p with
  | some (FsNode.readable c) => some (sha c)
  | some FsNode.unreadable => none
  | none => none

/-- `Manifest.verify_checksum` (`manifest.py` lines 39-60) over arbitrary
disk state: `False` when `exists()` is false; otherwise it calls
`calculate_sha256` with no exception handler, so an `open()` failure
propagates out of the method (`none`); on success it compares the digests. -/
def verify_checksum_disk (sha : Str → Str) (fs : List (Str × FsNode))
    (p expected : Str) : Option Bool :=
  if pathExists fs p then
    match calculate_sha256 sha fs p with
    | none => none
    | some actual => some (actual = expected)
  else some false

/-- `Manifest.compare_with` (`manifest.py` lines 122-142): iterate the remote
manifest's entries in order; a path is `changed` when it is absent from the
local dict or bound to a different hash, else `unchanged`. -/
def compare_with (localFiles : List Entry) :
    List Entry → List Str × List Str
  | [] => ([], [])
  | (p, remoteHash) :: rest =>
    let r := compare_with localFiles rest
    match dictGet localFiles p with
    | none => (p :: r.1, r.2)
    | some localHash =>
      if localHash = remoteHash then (r.1, p :: r.2) else (p :: r.1, r.2)

/-! ## installer.py -/

/-- The relative path of the version marker inside `.aiassisted`. -/
def versionPath : Str := ".version".data

/-- The relative path of the manifest file inside `.aiassisted`. -/
def manifestPath : Str := "FILES.txt".data

/-- The remote source, as the downloader sees it: each addressable resource
maps to `some content` (successful GET) or `none` (download failure). -/
structure Remote where
  version : Option Str
  manifestText : Option Str
  file : Str → Option Str

/-- `Installer.parse_version_file` (`installer.py` lines 49-71) applied to the
(optional) content of the version file: scan the stripped lines for the first
one starting with `key ++ "="` and return everything after the first `=`. -/
def parseVersionValue (content : Str) (key : Str) : Option Str :=
  (splitNl content).findSome? fun rawLine =>
    let line := pyStrip rawLine
    if (key ++ ['=']).isPrefixOf line then
      some ((line.dropWhile (fun c => c ≠ '=')).tail)
    else none

/-- `Installer.parse_version_file` including the existence check
(`installer.py` line 60): `none` when the file is absent. -/
def parse_version_file (fileContent : Option Str) (key : Str) : Option Str :=
  match fileContent with
  | none => none
  | some c => parseVersionValue c key

/-- `Installer.get_remote_version` (`installer.py` lines 73-91): fetch
`.aiassisted/.version` and extract `COMMIT_HASH=`; `none` on download failure
or when no such line exists. -/
def get_remote_version (oracle : Remote) : Option Str :=
  match oracle.version with
  | none => none
  | some c => parseVersionValue c "COMMIT_HASH".data

/-- The fetch-and-verify loop of `Installer.download_aiassisted`
(`installer.py` lines 125-139): for each manifest entry download the file into
the staging tree and verify its checksum; the first failure aborts with
`none`. -/
def fetchAll (sha : Str → Str) (oracle : Remote) :
    List Entry → FS → Option FS
  | [], staging => some staging
  | (p, expected) :: rest, staging =>
    match oracle.file p with
    | none => none
    | some content =>
      let staging' := dictInsert staging p content
      if verify_checksum sha staging' p expected then
        fetchAll sha oracle rest staging'
      else none

/-- `Installer.install` together with `Installer.download_aiassisted`
(`installer.py` lines 93-145 and 197-224): build the staging tree (version
marker first, then every manifest file fetched and verified, then the manifest
file itself) and, only on success, replace the target tree with it.  Returns
the success flag and the final target tree. -/
def install (sha : Str → Str) (oracle : Remote) (target : FS) : Bool × FS :=
  match oracle.version with
  | none => (false, target)
  | some v =>
    match oracle.manifestText with
    | none => (false, target)
    | some mc =>
      let manifest := load_from_content mc []
      match fetchAll sha oracle manifest (dictInsert [] versionPath v) with
      | none => (false, target)
      | some staging => (true, dictInsert staging manifestPath mc)

/-- The local-manifest loading step of `Installer.download_changed_files`
(`installer.py` lines 159-163): parse `FILES.txt` from the installed tree when
it exists, else keep the fresh manifest empty. -/
def loadLocalManifest (target : FS) : List Entry :=
  match dictGet target manifestPath with
  | none => []
  | some c => load_from_content c []

/-- The fetch-and-verify loop of `Installer.download_changed_files`
(`installer.py` lines 178-193): download each changed path into staging and
verify it against the hash recorded in the remote manifest; the first failure
discards staging and aborts with `none`. -/
def fetchChanged (sha : Str → Str) (oracle : Remote)
    (remoteManifest : List Entry) : List Str → FS → Option FS
  | [], staging => some staging
  | p :: rest, staging =>
    match dictGet remoteManifest p with
    | none => none
    | some expected =>
      match oracle.file p with
      | none => none
      | some content =>
        let staging' := dictInsert staging p content
        if verify_checksum sha staging' p expected then
          fetchChanged sha oracle remoteManifest rest staging'
        else none

/-- `Installer.download_changed_files` (`installer.py` lines 147-195): load the
local manifest, diff it against the remote one, and fetch only the changed
paths into a fresh staging tree. -/
def download_changed_files (sha : Str → Str) (oracle : Remote) (target : FS)
    (remoteManifest : List Entry) : Option FS :=
  fetchChanged sha oracle remoteManifest
    (compare_with (loadLocalManifest target) remoteManifest).1 []

/-- Serialization of the manifest as written by `Installer.apply_selective_update`
(`installer.py` lines 345-347): one `filepath:hash` line, `\n`-terminated, per
entry of the remote manifest, in order. -/
def serializeManifest : List Entry → Str
  | [] => []
  | (p, h) :: rest => p ++ ':' :: h ++ '\n' :: serializeManifest rest

/-- The copy loop of `Installer.apply_selective_update` (`installer.py` lines
350-361): for each remote-manifest path, copy it from staging over the target
when it was downloaded (counted as updated), else leave the target untouched
(counted as skipped). -/
def copyChanged (staging : FS) : List Str → FS → FS × Nat × Nat
  | [], target => (target, 0, 0)
  | p :: rest, target =>
    match dictGet staging p with
    | some c =>
      let r := copyChanged staging rest (dictInsert target p c)
      (r.1, r.2.1 + 1, r.2.2)
    | none =>
      let r := copyChanged staging rest target
      (r.1, r.2.1, r.2.2 + 1)

/-- `Installer.apply_selective_update` (`installer.py` lines 316-366): copy the
staged version marker over the target's (when staged), rewrite the target's
manifest file from the remote manifest's entries, then run the copy loop.
Returns the final target tree and the (updated, skipped) counts; the Python
method then always returns `True`. -/
def apply_selective_update (staging : FS) (target : FS)
    (remoteManifest : List Entry) : FS × Nat × Nat :=
  let t1 :=
    match dictGet staging versionPath with
    | some v => dictInsert target versionPath v
    | none => target
  let t2 := dictInsert t1 manifestPath (serializeManifest remoteManifest)
  copyChanged staging (remoteManifest.map Prod.fst) t2

/-- `Installer.update` (`installer.py` lines 226-314): fetch and parse the
remote manifest, download the changed files, download the fresh version marker
into staging, and, unless the run is forced, require user confirmation
(declining returns `False` with the target untouched); finally apply the
selective update.  Returns the success flag and the final target tree. -/
def update (sha : Str → Str) (oracle : Remote) (force userConfirm : Bool)
    (target : FS) : Bool × FS :=
  match oracle.manifestText with
  | none => (false, target)
  | some mc =>
    let remoteManifest := load_from_content mc []
    match download_changed_files sha oracle target remoteManifest with
    | none => (false, target)
    | some staging =>
      match oracle.version with
      | none => (false, target)
      | some v =>
        let staging' := dictInsert staging versionPath v
        if !force && !userConfirm then (false, target)
        else
          (true, (apply_selective_update staging' target remoteManifest).1)

/-! ## cli.py -/

/-- The local version value as computed by `CLI.cmd_update` and `CLI.cmd_check`
(`cli.py` lines 119-124): the Python string `"unknown"` when the version file
is absent, else `parse_version_file` (which yields Python `None`, modelled as
`none`, when no `COMMIT_HASH=` line is found). -/
def localHashOf (target : FS) : Option Str :=
  match dictGet target versionPath with
  | none => some "unknown".data
  | some c => parseVersionValue c "COMMIT_HASH".data

/-- The up-to-date test of `CLI.cmd_update` (`cli.py` line 133) and
`CLI.cmd_check` (`cli.py` line 177):
`local_hash != "unknown" and local_hash == remote_hash`. -/
def upToDate (target : FS) (oracle : Remote) : Bool :=
  decide (localHashOf target ≠ some "unknown".data) &&
    decide (localHashOf target = get_remote_version oracle)

/-- `CLI.cmd_update` (`cli.py` lines 106-149): exit code 1 when no `.aiassisted`
directory is installed; exit code 0 without running the update when the
version check reports up to date; otherwise run `Installer.update` and report
exit code 0 on success and exit code 1 (`"Failed to update .aiassisted"`) when
it returns `False`.  Returns the exit code and the final installed tree. -/
def cmd_update (sha : Str → Str) (oracle : Remote) (force userConfirm : Bool)
    (installed : Option FS) : Nat × Option FS :=
  match installed with
  | none => (1, none)
  | some target =>
    if upToDate target oracle then (0, some target)
    else
      let r := update sha oracle force userConfirm target
      (if r.1 then 0 else 1, some r.2)

/-! ## Auxiliary notions used only to state properties -/

/-- The per-line classification performed by the manifest parsing loop:
`none` for a line that is skipped (blank, comment, or without `:`), and the
`(path, hash)` pair stored for a parsed line. -/
def entryOfLine (rawLine : Str) : Option Entry :=
  let line := pyStrip rawLine
  if line = [] then none
  else if line.head? = some '#' then none
  else if line.contains ':' then
    some (line.takeWhile (fun c => c ≠ ':'),
      (line.dropWhile (fun c => c ≠ ':')).tail)
  else none

/-- The raw `(path, hash)` pairs produced by the parsing loop of
`load_from_content`, in source order and before the dict semantics collapses
duplicate paths.  Used to state the last-occurrence-wins property. -/
def rawEntries (content : Str) : List Entry :=
  (splitNl content).filterMap entryOfLine

/-- The path part of a serialized entry survives stripping: its first
character (when it exists) is neither whitespace nor `#`. -/
def goodHead (p : Str) : Bool :=
  match p.head? with
  | none => true
  | some c => !pyIsSpace c && c ≠ '#'

/-- The hash part of a serialized entry survives stripping: its last character
(when it exists) is not whitespace. -/
def goodLast (h : Str) : Bool :=
  match h.getLast? with
  | none => true
  | some c => !pyIsSpace c

/-- A manifest entry that the `path:hash` line format represents faithfully:
no colon or newline in the path, a first path character that stripping and the
comment rule leave alone, no newline in the hash, and a last hash character
that stripping leaves alone. -/
def wfEntry (e : Entry) : Bool :=
  !e.1.contains ':' && !e.1.contains '\n' && goodHead e.1 &&
    !e.2.contains '\n' && goodLast e.2

/-- Hexadecimal digit characters (lowercase), as used by
`hashlib.sha256().hexdigest()` digests. -/
def isHexChar (c : Char) : Bool :=
  c.isDigit || ('a' ≤ c && c ≤ 'f')

/-! ## Concrete scenarios used by counterexamples and witnesses -/

/-- A hash function assigning the digest `"aa"` to every content; realizable
with real SHA-256 by recording `sha256(content)` in the manifest. -/
def shaAA : Str → Str := fun _ => "aa".data

/-- A remote source whose manifest lists `FILES.txt` itself as a payload path
with digest `"aa"`, and which serves the content `"hello"` for it. -/
def oracleSelfManifest : Remote :=
  { version := some "COMMIT_HASH=v".data
    manifestText := some "FILES.txt:aa".data
    file := fun p => if p = manifestPath then some "hello".data else none }

/-- A remote source whose version marker and manifest are available but whose
individual files all fail to download. -/
def oracleNoFiles : Remote :=
  { version := some "COMMIT_HASH=new".data
    manifestText := some "a.txt:aa".data
    file := fun _ => none }

/-- A remote source with an empty manifest and a fresh version marker. -/
def oracleEmptyManifest : Remote :=
  { version := some "COMMIT_HASH=new".data
    manifestText := some "".data
    file := fun _ => none }

/-- A remote source that is entirely unreachable. -/
def oracleDown : Remote :=
  { version := none, manifestText := none, file := fun _ => none }

/-- An installed tree whose version marker records `COMMIT_HASH=old`. -/
def targetOld : FS := [(versionPath, "COMMIT_HASH=old".data)]

/-- A healthy remote source: one payload file `a.txt` with content `"body"`
recorded under digest `"aa"`. -/
def oracleGood : Remote :=
  { version := some "COMMIT_HASH=v".data
    manifestText := some "a.txt:aa".data
    file := fun p => if p = "a.txt".data then some "body".data else none }

/-- The installed tree produced by a successful update from `oracleGood`
applied to an empty target. -/
def treeAfterGood : FS :=
  [(versionPath, "COMMIT_HASH=v".data),
    (manifestPath, "a.txt:aa\n".data),
    ("a.txt".data, "body".data)]

/-! # Lemmas about the dictionary model -/

theorem dictGet_dictInsert (m : List (Str × Str)) (k v k' : Str) :
    dictGet (dictInsert m k v) k' = if k = k' then some v else dictGet m k' := by
  induction m with
  | nil => simp [dictInsert, dictGet]
  | cons e rest ih =>
    obtain ⟨a, b⟩ := e
    by_cases hak : a = k
    · subst hak
      by_cases hk' : a = k' <;> simp [dictInsert, dictGet, hk']
    · by_cases hk' : a = k'
      · subst hk'
        simp [dictInsert, dictGet, hak, Ne.symm hak]
      · simp [dictInsert, dictGet, hak, hk', ih]

theorem dictInsert_self (m : List (Str × Str)) (k v : Str)
    (h : dictGet m k = some v) : dictInsert m k v = m := by
  induction m with
  | nil => simp [dictGet] at h
  | cons e rest ih =>
    obtain ⟨a, b⟩ := e
    by_cases hak : a = k
    · subst hak
      simp [dictGet] at h
      simp [dictInsert, h]
    · simp [dictGet, hak] at h
      simp [dictInsert, hak, ih h]

theorem dictGet_eq_none_iff (m : List (Str × Str)) (k : Str) :
    dictGet m k = none ↔ k ∉ m.map Prod.fst := by
  induction m with
  | nil => simp [dictGet]
  | cons e rest ih =>
    obtain ⟨a, b⟩ := e
    by_cases hak : a = k
    · subst hak
      simp [dictGet]
    · have hka : k ≠ a := Ne.symm hak
      simp [dictGet, hak, ih, hka]

theorem dictGet_isSome_of_mem (m : List (Str × Str)) (k : Str)
    (h : k ∈ m.map Prod.fst) : ∃ v, dictGet m k = some v := by
  cases hv : dictGet m k with
  | none => exact absurd h ((dictGet_eq_none_iff m k).mp hv)
  | some v => exact ⟨v, rfl⟩

theorem mem_of_dictGet_eq_some (m : List (Str × Str)) (k v : Str)
    (h : dictGet m k = some v) : (k, v) ∈ m := by
  induction m with
  | nil => simp [dictGet] at h
  | cons e rest ih =>
    obtain ⟨a, b⟩ := e
    by_cases hak : a = k
    · subst hak
      simp [dictGet] at h
      simp [h]
    · simp [dictGet, hak] at h
      simp [ih h]

theorem dictGet_eq_some_of_mem_nodup (m : List (Str × Str)) (k v : Str)
    (hnd : (m.map Prod.fst).Nodup) (h : (k, v) ∈ m) :
    dictGet m k = some v := by
  induction m with
  | nil => simp at h
  | cons e rest ih =>
    obtain ⟨a, b⟩ := e
    rw [List.map_cons, List.nodup_cons] at hnd
    rcases List.mem_cons.mp h with heq | hmem
    · have hka : k = a := congrArg Prod.fst heq
      have hvb : v = b := congrArg Prod.snd heq
      subst hka
      subst hvb
      simp [dictGet]
    · have hak : a ≠ k := by
        rintro rfl
        exact hnd.1 (List.mem_map.mpr ⟨(a, v), hmem, rfl⟩)
      simp only [dictGet, if_neg hak]
      exact ih hnd.2 hmem

theorem mem_keys_dictInsert (m : List (Str × Str)) (k v k' : Str) :
    k' ∈ (dictInsert m k v).map Prod.fst ↔ k' ∈ m.map Prod.fst ∨ k' = k := by
  induction m with
  | nil => simp [dictInsert]
  | cons e rest ih =>
    obtain ⟨a, b⟩ := e
    by_cases hak : a = k
    · subst hak
      simp [dictInsert]
      tauto
    · simp [dictInsert, hak, ih]
      tauto

theorem keys_dictInsert_nodup (m : List (Str × Str)) (k v : Str)
    (hnd : (m.map Prod.fst).Nodup) :
    ((dictInsert m k v).map Prod.fst).Nodup := by
  induction m with
  | nil => simp [dictInsert]
  | cons e rest ih =>
    obtain ⟨a, b⟩ := e
    rw [List.map_cons, List.nodup_cons] at hnd
    by_cases hak : a = k
    · subst hak
      have hins : dictInsert ((a, b) :: rest) a v = (a, v) :: rest := by
        simp [dictInsert]
      rw [hins, List.map_cons, List.nodup_cons]
      exact hnd
    · simp only [dictInsert, if_neg hak, List.map_cons, List.nodup_cons]
      refine ⟨?_, ih hnd.2⟩
      intro hmem
      rcases (mem_keys_dictInsert rest k v a).mp hmem with h | h
      · exact hnd.1 h
      · exact hak h

theorem dict_value_unique (m : List (Str × Str)) (k a b : Str)
    (hnd : (m.map Prod.fst).Nodup) (ha : (k, a) ∈ m) (hb : (k, b) ∈ m) :
    a = b := by
  have h1 := dictGet_eq_some_of_mem_nodup m k a hnd ha
  have h2 := dictGet_eq_some_of_mem_nodup m k b hnd hb
  rw [h1] at h2
  exact Option.some.inj h2

/-! # Lemmas about compare_with -/

theorem mem_compare_changed (l r : List Entry) (p : Str) :
    p ∈ (compare_with l r).1 ↔ ∃ rh, (p, rh) ∈ r ∧ dictGet l p ≠ some rh := by
  induction r with
  | nil => simp [compare_with]
  | cons e rest ih =>
    obtain ⟨q, rh⟩ := e
    cases hq : dictGet l q with
    | none =>
      simp only [compare_with, hq, List.mem_cons]
      constructor
      · rintro (rfl | hp)
        · exact ⟨rh, Or.inl rfl, by simp [hq]⟩
        · obtain ⟨rh', hm, hne⟩ := ih.mp hp
          exact ⟨rh', Or.inr hm, hne⟩
      · rintro ⟨rh', hm | hm, hne⟩
        · exact Or.inl (congrArg Prod.fst hm)
        · exact Or.inr (ih.mpr ⟨rh', hm, hne⟩)
    | some lh =>
      by_cases hlr : lh = rh
      · subst hlr
        simp only [compare_with, hq, if_true]
        constructor
        · intro hp
          obtain ⟨rh', hm, hne⟩ := ih.mp hp
          exact ⟨rh', List.mem_cons_of_mem _ hm, hne⟩
        · rintro ⟨rh', hm, hne⟩
          rcases List.mem_cons.mp hm with heq | hm'
          · have hp : p = q := congrArg Prod.fst heq
            have hr : rh' = lh := congrArg Prod.snd heq
            subst hp
            subst hr
            exact absurd hq hne
          · exact ih.mpr ⟨rh', hm', hne⟩
      · simp only [compare_with, hq, if_neg hlr, List.mem_cons]
        constructor
        · rintro (rfl | hp)
          · exact ⟨rh, Or.inl rfl, by simp [hq, hlr]⟩
          · obtain ⟨rh', hm, hne⟩ := ih.mp hp
            exact ⟨rh', Or.inr hm, hne⟩
        · rintro ⟨rh', hm | hm, hne⟩
          · exact Or.inl (congrArg Prod.fst hm)
          · exact Or.inr (ih.mpr ⟨rh', hm, hne⟩)

theorem mem_compare_unchanged (l r : List Entry) (p : Str) :
    p ∈ (compare_with l r).2 ↔ ∃ rh, (p, rh) ∈ r ∧ dictGet l p = some rh := by
  induction r with
  | nil => simp [compare_with]
  | cons e rest ih =>
    obtain ⟨q, rh⟩ := e
    cases hq : dictGet l q with
    | none =>
      simp only [compare_with, hq]
      constructor
      · intro hp
        obtain ⟨rh', hm, he⟩ := ih.mp hp
        exact ⟨rh', List.mem_cons_of_mem _ hm, he⟩
      · rintro ⟨rh', hm, he⟩
        rcases List.mem_cons.mp hm with heq | hm'
        · have hp : p = q := congrArg Prod.fst heq
          subst hp
          rw [hq] at he
          exact absurd he (by simp)
        · exact ih.mpr ⟨rh', hm', he⟩
    | some lh =>
      by_cases hlr : lh = rh
      · subst hlr
        simp only [compare_with, hq, if_true, List.mem_cons]
        constructor
        · rintro (rfl | hp)
          · exact ⟨lh, Or.inl rfl, hq⟩
          · obtain ⟨rh', hm, he⟩ := ih.mp hp
            exact ⟨rh', Or.inr hm, he⟩
        · rintro ⟨rh', hm | hm, he⟩
          · exact Or.inl (congrArg Prod.fst hm)
          · exact Or.inr (ih.mpr ⟨rh', hm, he⟩)
      · simp only [compare_with, hq, if_neg hlr]
        constructor
        · intro hp
          obtain ⟨rh', hm, he⟩ := ih.mp hp
          exact ⟨rh', List.mem_cons_of_mem _ hm, he⟩
        · rintro ⟨rh', hm, he⟩
          rcases List.mem_cons.mp hm with heq | hm'
          · have hp : p = q := congrArg Prod.fst heq
            have hr : rh' = rh := congrArg Prod.snd heq
            subst hp
            subst hr
            rw [hq] at he
            exact absurd (Option.some.inj he) hlr
          · exact ih.mpr ⟨rh', hm', he⟩

theorem compare_with_nil (r : List Entry) :
    compare_with [] r = (r.map Prod.fst, []) := by
  induction r with
  | nil => simp [compare_with]
  | cons e rest ih =>
    obtain ⟨q, rh⟩ := e
    simp [compare_with, dictGet, ih]

theorem compare_with_all_match (l r : List Entry)
    (h : ∀ e ∈ r, dictGet l e.1 = some e.2) :
    compare_with l r = ([], r.map Prod.fst) := by
  induction r with
  | nil => simp [compare_with]
  | cons e rest ih =>
    obtain ⟨q, rh⟩ := e
    have hq : dictGet l q = some rh := h (q, rh) (List.mem_cons_self _ _)
    have hrest := ih fun e he => h e (List.mem_cons_of_mem _ he)
    simp [compare_with, hq, hrest]

/-! # Claim theorems -/

/-- C1: `Manifest.compare_with` partitions the remote manifest's path set:
every changed path is absent from the local manifest or carries a digest
differing from the remote one; every unchanged path carries the identical
digest in both manifests; the union of the two lists is exactly the remote
path set; and the two lists are disjoint. -/
theorem compare_with_partition (localFiles remoteFiles : List Entry)
    (hnd : (remoteFiles.map Prod.fst).Nodup) :
    (∀ p ∈ (compare_with localFiles remoteFiles).1,
       dictGet localFiles p = none ∨
         ∃ lh rh, dictGet localFiles p = some lh ∧
           dictGet remoteFiles p = some rh ∧ lh ≠ rh) ∧
    (∀ p ∈ (compare_with localFiles remoteFiles).2,
       ∃ h, dictGet localFiles p = some h ∧ dictGet remoteFiles p = some h) ∧
    (∀ p, (p ∈ (compare_with localFiles remoteFiles).1 ∨
           p ∈ (compare_with localFiles remoteFiles).2) ↔
          p ∈ remoteFiles.map Prod.fst) ∧
    (∀ p, p ∈ (compare_with localFiles remoteFiles).1 →
          p ∉ (compare_with localFiles remoteFiles).2) := by
  refine ⟨?_, ?_, ?_, ?_⟩
  · intro p hp
    obtain ⟨rh, hm, hne⟩ := (mem_compare_changed localFiles remoteFiles p).mp hp
    have hr := dictGet_eq_some_of_mem_nodup remoteFiles p rh hnd hm
    cases hl : dictGet localFiles p with
    | none => exact Or.inl rfl
    | some lh =>
      refine Or.inr ⟨lh, rh, rfl, hr, ?_⟩
      rintro rfl
      rw [hl] at hne
      exact hne rfl
  · intro p hp
    obtain ⟨rh, hm, he⟩ := (mem_compare_unchanged localFiles remoteFiles p).mp hp
    exact ⟨rh, he, dictGet_eq_some_of_mem_nodup remoteFiles p rh hnd hm⟩
  · intro p
    constructor
    · rintro (hp | hp)
      · obtain ⟨rh, hm, _⟩ := (mem_compare_changed localFiles remoteFiles p).mp hp
        exact List.mem_map.mpr ⟨(p, rh), hm, rfl⟩
      · obtain ⟨rh, hm, _⟩ := (mem_compare_unchanged localFiles remoteFiles p).mp hp
        exact List.mem_map.mpr ⟨(p, rh), hm, rfl⟩
    · intro hp
      obtain ⟨v, hv⟩ := dictGet_isSome_of_mem remoteFiles p hp
      have hm := mem_of_dictGet_eq_some remoteFiles p v hv
      by_cases hc : dictGet localFiles p = some v
      · exact Or.inr ((mem_compare_unchanged localFiles remoteFiles p).mpr
          ⟨v, hm, hc⟩)
      · exact Or.inl ((mem_compare_changed localFiles remoteFiles p).mpr
          ⟨v, hm, hc⟩)
  · intro p hc hu
    obtain ⟨rh, hm, hne⟩ := (mem_compare_changed localFiles remoteFiles p).mp hc
    obtain ⟨rh', hm', he⟩ := (mem_compare_unchanged localFiles remoteFiles p).mp hu
    have : rh = rh' := dict_value_unique remoteFiles p rh rh' hnd hm hm'
    subst this
    exact hne he

/-- Witness for C1 at the spec's Scenario A manifests. -/
theorem compare_with_partition_witness :
    ("b".data ∈ (compare_with [("a".data, "H1".data)]
        [("a".data, "H1".data), ("b".data, "H2".data)]).1 ∨
      "b".data ∈ (compare_with [("a".data, "H1".data)]
        [("a".data, "H1".data), ("b".data, "H2".data)]).2) ↔
      "b".data ∈
        ([("a".data, "H1".data), ("b".data, "H2".data)].map Prod.fst) :=
  (compare_with_partition [("a".data, "H1".data)]
    [("a".data, "H1".data), ("b".data, "H2".data)] (by decide)).2.2.1 "b".data

/-- C7: when the installed tree has no `FILES.txt`, `download_changed_files`
keeps the local manifest empty and the diff classifies every remote path as
changed and none as unchanged. -/
theorem absent_local_manifest_all_changed (target : FS)
    (remoteManifest : List Entry)
    (h : dictGet target manifestPath = none) :
    loadLocalManifest target = [] ∧
    compare_with (loadLocalManifest target) remoteManifest =
      (remoteManifest.map Prod.fst, []) := by
  have h0 : loadLocalManifest target = [] := by
    simp [loadLocalManifest, h]
  refine ⟨h0, ?_⟩
  rw [h0]
  exact compare_with_nil remoteManifest

/-- Witness for C7: an empty installed tree against a one-entry remote
manifest. -/
theorem absent_local_manifest_all_changed_witness :
    loadLocalManifest [] = [] ∧
    compare_with (loadLocalManifest []) [("a.txt".data, "aa".data)] =
      ([("a.txt".data, "aa".data)].map Prod.fst, []) :=
  absent_local_manifest_all_changed [] [("a.txt".data, "aa".data)] (by decide)

/-- C3 counterexample: a path that exists but is not a readable regular file
(a directory, or an unreadable file).  `Path.exists()` returns true, so the
guard at `manifest.py` line 49 is passed, and the uncaught `open()` inside
`calculate_sha256` raises — `verify_checksum` propagates the exception
(modelled as `none`) instead of returning a boolean, refuting "never raises
an exception for any input". -/
theorem verify_checksum_raises_on_unreadable :
    pathExists [("d".data, FsNode.unreadable)] "d".data = true ∧
    verify_checksum_disk shaAA [("d".data, FsNode.unreadable)] "d".data
      "aa".data = none := by
  decide

/-- C3 amended: `Manifest.verify_checksum` returns `False` when the file is
missing or its computed digest differs from the expected one, and returns
`True` exactly when the path names a readable regular file whose computed
digest equals the expected digest; it raises no exception when the path is
absent or names a readable regular file, but a path that exists and cannot be
opened as a regular file propagates the uncaught `open()` error (and exactly
then). -/
theorem verify_checksum_disk_spec (sha : Str → Str)
    (fs : List (Str × FsNode)) (p expected : Str) :
    (fsLookup fs p = none →
      verify_checksum_disk sha fs p expected = some false) ∧
    (∀ c, fsLookup fs p = some (FsNode.readable c) → sha c ≠ expected →
      verify_checksum_disk sha fs p expected = some false) ∧
    (verify_checksum_disk sha fs p expected = some true ↔
      ∃ c, fsLookup fs p = some (FsNode.readable c) ∧ sha c = expected) ∧
    (verify_checksum_disk sha fs p expected = none ↔
      fsLookup fs p = some FsNode.unreadable) := by
  refine ⟨?_, ?_, ?_, ?_⟩
  · intro h
    simp [verify_checksum_disk, pathExists, calculate_sha256, h]
  · intro c hc hne
    simp [verify_checksum_disk, pathExists, calculate_sha256, hc, hne]
  · cases h : fsLookup fs p with
    | none => simp [verify_checksum_disk, pathExists, calculate_sha256, h]
    | some node =>
      cases node with
      | readable c =>
        simp [verify_checksum_disk, pathExists, calculate_sha256, h]
      | unreadable =>
        simp [verify_checksum_disk, pathExists, calculate_sha256, h]
  · cases h : fsLookup fs p with
    | none => simp [verify_checksum_disk, pathExists, calculate_sha256, h]
    | some node =>
      cases node with
      | readable c =>
        simp [verify_checksum_disk, pathExists, calculate_sha256, h]
      | unreadable =>
        simp [verify_checksum_disk, pathExists, calculate_sha256, h]

/-- Witness for C3's amended claim at a concrete readable file. -/
theorem verify_checksum_disk_spec_witness :
    verify_checksum_disk shaAA [("a.txt".data, FsNode.readable "body".data)]
        "a.txt".data "aa".data = some true ↔
      ∃ c, fsLookup [("a.txt".data, FsNode.readable "body".data)]
          "a.txt".data = some (FsNode.readable c) ∧ shaAA c = "aa".data :=
  (verify_checksum_disk_spec shaAA
    [("a.txt".data, FsNode.readable "body".data)] "a.txt".data
    "aa".data).2.2.1

/-- C5 counterexample: an installed tree whose version file exists but contains
no `COMMIT_HASH=` line (so the local version is unparsable, Python `None`),
compared while the remote fetch fails (remote also `None`): the CLI reports
"already up-to-date", contradicting the claim that an unparsable local marker
is never reported as up to date. -/
theorem version_check_unparsable_reported_up_to_date :
    parse_version_file (some "x".data) "COMMIT_HASH".data = none ∧
    get_remote_version oracleDown = none ∧
    upToDate [(versionPath, "x".data)] oracleDown = true := by
  decide

/-- C5 amended: the check/update version comparison reports "up to date"
exactly when either both sides yield the same present value different from the
literal string `unknown`, or the local marker file exists but yields no
`COMMIT_HASH` value (Python `None`) while the remote fetch also yields `None`;
a missing local marker file is mapped to the literal value `unknown` and is
never reported as up to date. -/
theorem version_check_characterization (t : FS) (oracle : Remote) :
    (upToDate t oracle = true ↔
      ((∃ v, localHashOf t = some v ∧ get_remote_version oracle = some v ∧
          v ≠ "unknown".data) ∨
        (localHashOf t = none ∧ get_remote_version oracle = none))) ∧
    (dictGet t versionPath = none → upToDate t oracle = false) := by
  constructor
  · cases hl : localHashOf t with
    | none =>
      cases hr : get_remote_version oracle with
      | none => simp [upToDate, hl, hr]
      | some w => simp [upToDate, hl, hr]
    | some v =>
      cases hr : get_remote_version oracle with
      | none => simp [upToDate, hl, hr]
      | some w =>
        by_cases hvw : v = w
        · subst hvw
          by_cases hu : v = "unknown".data
          · subst hu
            simp [upToDate, hl, hr]
          · simp [upToDate, hl, hr, hu]
        · simp [upToDate, hl, hr, hvw]
          intro x
          exact absurd x.symm hvw
  · intro h
    have hl : localHashOf t = some "unknown".data := by
      simp [localHashOf, h]
    simp [upToDate, hl]

/-- Witness for C5's amended claim: a tree with no version marker file is
never reported up to date. -/
theorem version_check_characterization_witness :
    upToDate [] oracleDown = false :=
  (version_check_characterization [] oracleDown).2 (by decide)

/-- C4 counterexample: a non-forced update in which the user declines the
prompt.  The target is left untouched, but `CLI.cmd_update` reports the run
with exit code 1 — the same generic-failure code as any failed update — so the
outcome is reported as a failure, not as a distinct non-error cancellation. -/
theorem decline_reported_as_failure :
    update shaAA oracleEmptyManifest false false targetOld =
      (false, targetOld) ∧
    cmd_update shaAA oracleEmptyManifest false false (some targetOld) =
      (1, some targetOld) := by
  decide

/-- C4 amended: for every non-forced update in which every fetch preceding the
prompt succeeds and the user declines the confirmation, the update aborts
leaving the target untouched; however `Installer.update` returns `False` and
`CLI.cmd_update` reports the cancellation with exit code 1, exactly as it
reports a failure (only an informational "Update cancelled" log line marks the
difference). -/
theorem decline_aborts_with_failure_code (sha : Str → Str) (oracle : Remote)
    (target : FS) (mc : Str) (staging : FS) (v : Str)
    (hm : oracle.manifestText = some mc)
    (hd : download_changed_files sha oracle target (load_from_content mc []) =
      some staging)
    (hv : oracle.version = some v) :
    update sha oracle false false target = (false, target) ∧
    (upToDate target oracle = false →
      cmd_update sha oracle false false (some target) =
        (1, some target)) := by
  have hu : update sha oracle false false target = (false, target) := by
    simp [update, hm, hd, hv]
  refine ⟨hu, fun hnot => ?_⟩
  simp [cmd_update, hnot, hu]

/-- Witness for C4's amended claim at the concrete declining scenario. -/
theorem decline_aborts_with_failure_code_witness :
    update shaAA oracleEmptyManifest false false targetOld =
      (false, targetOld) ∧
    (upToDate targetOld oracleEmptyManifest = false →
      cmd_update shaAA oracleEmptyManifest false false (some targetOld) =
        (1, some targetOld)) :=
  decline_aborts_with_failure_code shaAA oracleEmptyManifest targetOld
    "".data [] "COMMIT_HASH=new".data (by decide) (by decide) (by decide)

/-! # Lemmas about the line parser -/

theorem head_dropWhile_false (q : Char → Bool) (l : Str) (c : Char)
    (h : (l.dropWhile q).head? = some c) : q c = false := by
  induction l with
  | nil => simp [List.dropWhile] at h
  | cons a as ih =>
    rw [List.dropWhile_cons] at h
    by_cases hq : q a
    · rw [if_pos hq] at h
      exact ih h
    · rw [if_neg hq] at h
      have : a = c := by simpa using h
      subst this
      exact Bool.eq_false_iff.mpr hq

theorem pyStrip_head_not_space (l : Str) (c : Char)
    (h : (pyStrip l).head? = some c) : pyIsSpace c = false := by
  unfold pyStrip at h
  rw [List.head?_reverse] at h
  obtain ⟨t, ht⟩ :=
    List.dropWhile_suffix (l := (l.dropWhile pyIsSpace).reverse) pyIsSpace
  have hd : ((l.dropWhile pyIsSpace).reverse).getLast? = some c := by
    rw [← ht, List.getLast?_append, h]
    rfl
  rw [List.getLast?_reverse] at hd
  exact head_dropWhile_false pyIsSpace l c hd

theorem pyStrip_getLast_not_space (l : Str) (c : Char)
    (h : (pyStrip l).getLast? = some c) : pyIsSpace c = false := by
  unfold pyStrip at h
  rw [List.getLast?_reverse] at h
  exact head_dropWhile_false pyIsSpace _ c h

theorem mem_pyStrip (l : Str) (c : Char) (h : c ∈ pyStrip l) : c ∈ l := by
  unfold pyStrip at h
  rw [List.mem_reverse] at h
  have h1 := (List.dropWhile_suffix pyIsSpace).sublist.subset h
  rw [List.mem_reverse] at h1
  exact (List.dropWhile_suffix pyIsSpace).sublist.subset h1

theorem splitNl_no_newline (s : Str) : ∀ l ∈ splitNl s, '\n' ∉ l := by
  induction s with
  | nil =>
    intro l hl
    simp [splitNl] at hl
    subst hl
    simp
  | cons c rest ih =>
    intro l hl
    by_cases hc : c = '\n'
    · subst hc
      have hsp : splitNl ('\n' :: rest) = [] :: splitNl rest := by
        simp [splitNl]
      rw [hsp, List.mem_cons] at hl
      rcases hl with rfl | hl
      · simp
      · exact ih l hl
    · cases hs : splitNl rest with
      | nil =>
        simp only [splitNl, if_neg hc, hs] at hl
        simp at hl
        subst hl
        simp [Ne.symm hc]
      | cons x xs =>
        simp only [splitNl, if_neg hc, hs, List.mem_cons] at hl
        rcases hl with rfl | hl
        · intro hmem
          rcases List.mem_cons.mp hmem with heq | hmem'
          · exact hc heq.symm
          · exact ih x (hs ▸ List.mem_cons_self x xs) hmem'
        · exact ih l (hs ▸ List.mem_cons_of_mem x hl)

theorem parseLine_eq_entryOfLine (m : List Entry) (raw : Str) :
    parseLine m raw =
      match entryOfLine raw with
      | none => m
      | some e => dictInsert m e.1 e.2 := by
  unfold parseLine entryOfLine
  by_cases h1 : pyStrip raw = []
  · simp [h1]
  · by_cases h2 : (pyStrip raw).head? = some '#'
    · simp [h1, h2]
    · by_cases h3 : ':' ∈ pyStrip raw <;> simp [h1, h2, h3]

theorem foldl_parseLine_eq (lines : List Str) (init : List Entry) :
    lines.foldl parseLine init =
      (lines.filterMap entryOfLine).foldl
        (fun m e => dictInsert m e.1 e.2) init := by
  induction lines generalizing init with
  | nil => rfl
  | cons raw rest ih =>
    rw [List.foldl_cons, parseLine_eq_entryOfLine]
    cases he : entryOfLine raw with
    | none => simp [List.filterMap_cons, he, ih]
    | some e => simp [List.filterMap_cons, he, ih]

theorem dictGet_append (m1 m2 : List (Str × Str)) (p : Str) :
    dictGet (m1 ++ m2) p = (dictGet m1 p).or (dictGet m2 p) := by
  induction m1 with
  | nil => simp [dictGet]
  | cons e rest ih =>
    obtain ⟨a, b⟩ := e
    by_cases hap : a = p <;> simp [dictGet, hap, ih]

theorem dictGet_foldl_dictInsert (es : List Entry) (init : List Entry)
    (p : Str) :
    dictGet (es.foldl (fun m e => dictInsert m e.1 e.2) init) p =
      (dictGet es.reverse p).or (dictGet init p) := by
  induction es generalizing init with
  | nil => simp [dictGet]
  | cons e rest ih =>
    rw [List.foldl_cons, ih, List.reverse_cons, dictGet_append,
      Option.or_assoc]
    congr 1
    rw [dictGet_dictInsert]
    obtain ⟨a, b⟩ := e
    by_cases hap : a = p <;> simp [dictGet, hap]

theorem parseLine_keys_nodup (m : List Entry) (raw : Str)
    (h : (m.map Prod.fst).Nodup) :
    ((parseLine m raw).map Prod.fst).Nodup := by
  rw [parseLine_eq_entryOfLine]
  cases entryOfLine raw with
  | none => exact h
  | some e => exact keys_dictInsert_nodup m e.1 e.2 h

theorem foldl_parseLine_keys_nodup (lines : List Str) (init : List Entry)
    (h : (init.map Prod.fst).Nodup) :
    ((lines.foldl parseLine init).map Prod.fst).Nodup := by
  induction lines generalizing init with
  | nil => exact h
  | cons raw rest ih =>
    rw [List.foldl_cons]
    exact ih _ (parseLine_keys_nodup init raw h)

theorem load_from_content_keys_nodup (content : Str) (init : List Entry)
    (h : (init.map Prod.fst).Nodup) :
    ((load_from_content content init).map Prod.fst).Nodup :=
  foldl_parseLine_keys_nodup (splitNl content) init h

/-! # Round-trip lemmas: serializeManifest then load_from_content -/

theorem takeWhile_ne_append (p t : Str) (hp : ':' ∉ p) :
    (p ++ ':' :: t).takeWhile (fun c => c ≠ ':') = p := by
  induction p with
  | nil => simp [List.takeWhile]
  | cons a as ih =>
    have ha : a ≠ ':' := fun h => hp (h ▸ List.mem_cons_self a as)
    have ih' := ih fun h => hp (List.mem_cons_of_mem a h)
    simp only [List.cons_append, List.takeWhile_cons]
    rw [if_pos (by simp [ha])]
    rw [ih']

theorem dropWhile_ne_append (p t : Str) (hp : ':' ∉ p) :
    (p ++ ':' :: t).dropWhile (fun c => c ≠ ':') = ':' :: t := by
  induction p with
  | nil => simp [List.dropWhile]
  | cons a as ih =>
    have ha : a ≠ ':' := fun h => hp (h ▸ List.mem_cons_self a as)
    have ih' := ih fun h => hp (List.mem_cons_of_mem a h)
    simp only [List.cons_append, List.dropWhile_cons]
    rw [if_pos (by simp [ha])]
    rw [ih']

theorem pyStrip_eq_self (l : Str)
    (hh : ∀ c, l.head? = some c → pyIsSpace c = false)
    (hl : ∀ c, l.getLast? = some c → pyIsSpace c = false) :
    pyStrip l = l := by
  have h1 : l.dropWhile pyIsSpace = l := by
    cases l with
    | nil => rfl
    | cons a as =>
      rw [List.dropWhile_cons, if_neg]
      simp [hh a rfl]
  unfold pyStrip
  rw [h1]
  have h2 : l.reverse.dropWhile pyIsSpace = l.reverse := by
    cases hr : l.reverse with
    | nil => simp
    | cons a as =>
      have hha : l.getLast? = some a := by
        rw [← List.head?_reverse, hr]
        rfl
      rw [List.dropWhile_cons]
      rw [if_neg (by simp [hl a hha])]
  rw [h2, List.reverse_reverse]

theorem line_head? (p h : Str) (hgh : goodHead p = true) :
    ∀ c, (p ++ ':' :: h).head? = some c →
      pyIsSpace c = false ∧ c ≠ '#' := by
  intro c hc
  cases p with
  | nil =>
    simp at hc
    subst hc
    exact ⟨by decide, by decide⟩
  | cons a as =>
    simp at hc
    subst hc
    unfold goodHead at hgh
    simp at hgh
    exact ⟨hgh.1, hgh.2⟩

theorem line_getLast? (p h : Str) (hgl : goodLast h = true) :
    ∀ c, (p ++ ':' :: h).getLast? = some c → pyIsSpace c = false := by
  intro c hc
  rw [List.getLast?_append] at hc
  cases hg : h.getLast? with
  | none =>
    cases h with
    | nil =>
      simp at hc
      subst hc
      decide
    | cons b bs => simp [List.getLast?_cons] at hg
  | some d =>
    have : (':' :: h).getLast? = some d := by
      rw [List.getLast?_cons, hg]
      rfl
    rw [this] at hc
    have hcd : d = c := by simpa using hc
    subst hcd
    unfold goodLast at hgl
    rw [hg] at hgl
    simpa using hgl

theorem pyStrip_line (p h : Str) (hgh : goodHead p = true)
    (hgl : goodLast h = true) :
    pyStrip (p ++ ':' :: h) = p ++ ':' :: h :=
  pyStrip_eq_self _ (fun c hc => (line_head? p h hgh c hc).1)
    (line_getLast? p h hgl)

theorem parseLine_good (m : List Entry) (p h : Str)
    (hp : ':' ∉ p) (hgh : goodHead p = true) (hgl : goodLast h = true) :
    parseLine m (p ++ ':' :: h) = dictInsert m p h := by
  unfold parseLine
  rw [pyStrip_line p h hgh hgl]
  have hne : ¬(p ++ ':' :: h = []) := by simp
  have hhash : ¬((p ++ ':' :: h).head? = some '#') := by
    intro hc
    exact (line_head? p h hgh '#' hc).2 rfl
  have hcont : ':' ∈ p ++ ':' :: h := by simp
  rw [if_neg hne, if_neg hhash]
  simp only [List.contains, hcont]
  rw [if_pos (by simp [hcont])]
  rw [takeWhile_ne_append p h hp, dropWhile_ne_append p h hp]
  rfl

theorem parseLine_empty (m : List Entry) : parseLine m [] = m := rfl

theorem splitNl_append (l t : Str) (hl : '\n' ∉ l) :
    splitNl (l ++ '\n' :: t) = l :: splitNl t := by
  induction l with
  | nil => simp [splitNl]
  | cons a as ih =>
    have ha : ¬(a = '\n') := fun h => hl (h ▸ List.mem_cons_self a as)
    have ih' := ih fun h => hl (List.mem_cons_of_mem a h)
    have ih2 : splitNl (as.append ('\n' :: t)) = as :: splitNl t := ih'
    simp only [List.cons_append, splitNl, if_neg ha, ih2]

theorem splitNl_serializeManifest (m : List Entry)
    (hm : ∀ e ∈ m, '\n' ∉ e.1 ∧ '\n' ∉ e.2) :
    splitNl (serializeManifest m) =
      (m.map fun e => e.1 ++ ':' :: e.2) ++ [[]] := by
  induction m with
  | nil => rfl
  | cons e rest ih =>
    obtain ⟨p, h⟩ := e
    obtain ⟨hp, hh⟩ := hm (p, h) (List.mem_cons_self _ _)
    have hline : '\n' ∉ p ++ ':' :: h := by
      intro hc
      rcases List.mem_append.mp hc with hc | hc
      · exact hp hc
      · rcases List.mem_cons.mp hc with hc | hc
        · exact absurd hc (by decide)
        · exact hh hc
    have hser : serializeManifest ((p, h) :: rest) =
        (p ++ ':' :: h) ++ '\n' :: serializeManifest rest := by
      simp [serializeManifest]
    rw [hser, splitNl_append _ _ hline,
      ih fun e he => hm e (List.mem_cons_of_mem _ he)]
    simp

theorem dictInsert_append (m : List (Str × Str)) (k v : Str)
    (h : k ∉ m.map Prod.fst) : dictInsert m k v = m ++ [(k, v)] := by
  induction m with
  | nil => rfl
  | cons e rest ih =>
    obtain ⟨a, b⟩ := e
    have hak : ¬(a = k) := by
      intro hc
      exact h (by simp [hc])
    have h' : k ∉ rest.map Prod.fst := fun hc => h (by simp [hc])
    simp [dictInsert, hak, ih h']

theorem foldl_dictInsert_eq_append (es init : List Entry)
    (hnd : (es.map Prod.fst).Nodup)
    (hdisj : ∀ e ∈ es, e.1 ∉ init.map Prod.fst) :
    es.foldl (fun m e => dictInsert m e.1 e.2) init = init ++ es := by
  induction es generalizing init with
  | nil => simp
  | cons e rest ih =>
    rw [List.map_cons, List.nodup_cons] at hnd
    rw [List.foldl_cons,
      dictInsert_append init e.1 e.2 (hdisj e (List.mem_cons_self _ _))]
    have hdisj' : ∀ e' ∈ rest, e'.1 ∉ (init ++ [e]).map Prod.fst := by
      intro e' he' hc
      rw [List.map_append, List.mem_append] at hc
      rcases hc with hc | hc
      · exact hdisj e' (List.mem_cons_of_mem _ he') hc
      · simp at hc
        exact hnd.1 (hc ▸ List.mem_map.mpr ⟨e', he', rfl⟩)
    rw [ih (init ++ [e]) hnd.2 hdisj']
    simp

theorem foldl_parseLine_serialized (m : List Entry) (init : List Entry)
    (hwf : ∀ e ∈ m, wfEntry e = true) :
    (m.map fun e => e.1 ++ ':' :: e.2).foldl parseLine init =
      m.foldl (fun acc e => dictInsert acc e.1 e.2) init := by
  induction m generalizing init with
  | nil => rfl
  | cons e rest ih =>
    have hwfe := hwf e (List.mem_cons_self _ _)
    unfold wfEntry at hwfe
    simp only [Bool.and_eq_true] at hwfe
    have hp : ':' ∉ e.1 := by
      intro hc
      have hcc : List.contains e.1 ':' = true := by simpa using hc
      have hnc := hwfe.1.1.1.1
      rw [hcc] at hnc
      simp at hnc
    rw [List.map_cons, List.foldl_cons, List.foldl_cons,
      parseLine_good init e.1 e.2 hp hwfe.1.1.2 hwfe.2]
    exact ih _ fun e' he' => hwf e' (List.mem_cons_of_mem _ he')

theorem load_serialize_roundtrip (m : List Entry)
    (hnd : (m.map Prod.fst).Nodup) (hwf : ∀ e ∈ m, wfEntry e = true) :
    load_from_content (serializeManifest m) [] = m := by
  unfold load_from_content
  have hnl : ∀ e ∈ m, '\n' ∉ e.1 ∧ '\n' ∉ e.2 := by
    intro e he
    have hwfe := hwf e he
    unfold wfEntry at hwfe
    simp only [Bool.and_eq_true] at hwfe
    constructor
    · intro hc
      have hcc : List.contains e.1 '\n' = true := by simpa using hc
      have hnc := hwfe.1.1.1.2
      rw [hcc] at hnc
      simp at hnc
    · intro hc
      have hcc : List.contains e.2 '\n' = true := by simpa using hc
      have hnc := hwfe.1.2
      rw [hcc] at hnc
      simp at hnc
  rw [splitNl_serializeManifest m hnl, List.foldl_append,
    foldl_parseLine_serialized m [] hwf,
    foldl_dictInsert_eq_append m [] hnd (by simp)]
  simp [parseLine_empty]

theorem head?_takeWhile (q : Char → Bool) (l : Str) (a : Char)
    (h : (l.takeWhile q).head? = some a) : l.head? = some a := by
  cases l with
  | nil => simp [List.takeWhile] at h
  | cons x xs =>
    rw [List.takeWhile_cons] at h
    by_cases hq : q x
    · rw [if_pos hq] at h
      simp at h
      simp [h]
    · rw [if_neg hq] at h
      simp at h

theorem entryOfLine_wf (raw : Str) (e : Entry) (hraw : '\n' ∉ raw)
    (he : entryOfLine raw = some e) : wfEntry e = true := by
  have hnl : '\n' ∉ pyStrip raw := fun hc => hraw (mem_pyStrip raw '\n' hc)
  unfold entryOfLine at he
  by_cases h1 : pyStrip raw = []
  · simp [h1] at he
  · by_cases h2 : (pyStrip raw).head? = some '#'
    · simp [h1, h2] at he
    · by_cases h3 : ':' ∈ pyStrip raw
      · have helem : List.elem ':' (pyStrip raw) = true := by simpa using h3
        rw [if_neg h1, if_neg h2, if_pos helem, Option.some.injEq] at he
        have hp0 : e.1 = (pyStrip raw).takeWhile (fun c => c ≠ ':') := by
          rw [← he]
        have hh0 : e.2 =
            ((pyStrip raw).dropWhile (fun c => c ≠ ':')).tail := by
          rw [← he]
        unfold wfEntry
        simp only [Bool.and_eq_true]
        refine ⟨⟨⟨⟨?_, ?_⟩, ?_⟩, ?_⟩, ?_⟩
        · cases hc : e.1.contains ':' with
          | false => rfl
          | true =>
            exfalso
            have hmem : ':' ∈ e.1 := by simpa using hc
            rw [hp0] at hmem
            have := List.mem_takeWhile_imp hmem
            simp at this
        · cases hc : e.1.contains '\n' with
          | false => rfl
          | true =>
            exfalso
            have hmem : '\n' ∈ e.1 := by simpa using hc
            rw [hp0] at hmem
            exact hnl ((List.takeWhile_sublist _).subset hmem)
        · unfold goodHead
          cases hp : e.1.head? with
          | none => rfl
          | some a =>
            have hla : (pyStrip raw).head? = some a :=
              head?_takeWhile _ _ a (hp0 ▸ hp)
            have hsp := pyStrip_head_not_space raw a hla
            have hne : a ≠ '#' := by
              rintro rfl
              exact h2 hla
            simp [hsp, hne]
        · cases hc : e.2.contains '\n' with
          | false => rfl
          | true =>
            exfalso
            have hmem : '\n' ∈ e.2 := by simpa using hc
            rw [hh0] at hmem
            have h4 := (List.tail_sublist _).subset hmem
            exact hnl ((List.dropWhile_suffix _).sublist.subset h4)
        · unfold goodLast
          cases hg : e.2.getLast? with
          | none => rfl
          | some c =>
            cases hd : (pyStrip raw).dropWhile (fun c => c ≠ ':') with
            | nil =>
              rw [hh0, hd] at hg
              simp at hg
            | cons x xs =>
              have hxs : e.2 = xs := by
                rw [hh0, hd]
                rfl
              have hdl : ((pyStrip raw).dropWhile
                  (fun c => c ≠ ':')).getLast? = some c := by
                rw [hd, List.getLast?_cons, ← hxs, hg]
                rfl
              have hlast : (pyStrip raw).getLast? = some c := by
                conv_lhs =>
                  rw [← List.takeWhile_append_dropWhile
                    (p := fun c => c ≠ ':') (l := pyStrip raw)]
                rw [List.getLast?_append, hdl]
                rfl
              simp [pyStrip_getLast_not_space raw c hlast]
      · simp [h1, h2, h3] at he

theorem mem_dictInsert_elim (m : List (Str × Str)) (k v : Str) (e : Str × Str)
    (h : e ∈ dictInsert m k v) : e = (k, v) ∨ e ∈ m := by
  induction m with
  | nil => simpa [dictInsert] using h
  | cons f rest ih =>
    obtain ⟨a, b⟩ := f
    by_cases hak : a = k
    · subst hak
      simp [dictInsert] at h
      rcases h with h | h
      · exact Or.inl (by simp [h])
      · exact Or.inr (List.mem_cons_of_mem _ h)
    · simp only [dictInsert, if_neg hak, List.mem_cons] at h
      rcases h with h | h
      · exact Or.inr (h ▸ List.mem_cons_self _ _)
      · rcases ih h with h' | h'
        · exact Or.inl h'
        · exact Or.inr (List.mem_cons_of_mem _ h')

theorem mem_foldl_dictInsert (es init : List Entry) (e : Entry)
    (h : e ∈ es.foldl (fun m x => dictInsert m x.1 x.2) init) :
    e ∈ init ∨ e ∈ es := by
  induction es generalizing init with
  | nil => exact Or.inl h
  | cons f rest ih =>
    rw [List.foldl_cons] at h
    rcases ih _ h with h' | h'
    · rcases mem_dictInsert_elim init f.1 f.2 e h' with h'' | h''
      · exact Or.inr (h'' ▸ List.mem_cons_self _ _)
      · exact Or.inl h''
    · exact Or.inr (List.mem_cons_of_mem _ h')

theorem load_from_content_wf (content : Str) :
    ∀ e ∈ load_from_content content [], wfEntry e = true := by
  intro e he
  unfold load_from_content at he
  rw [foldl_parseLine_eq] at he
  rcases mem_foldl_dictInsert _ [] e he with h | h
  · simp at h
  · obtain ⟨raw, hmem, heq⟩ := List.mem_filterMap.mp h
    exact entryOfLine_wf raw e (splitNl_no_newline content raw hmem) heq

theorem isHexChar_not_space (c : Char) (h : isHexChar c = true) :
    pyIsSpace c = false := by
  cases hsp : pyIsSpace c with
  | false => rfl
  | true =>
    exfalso
    unfold pyIsSpace at hsp
    simp only [Bool.or_eq_true, decide_eq_true_eq] at hsp
    rcases hsp with ((((rfl | rfl) | rfl) | rfl) | rfl) | rfl <;>
      exact absurd h (by decide)

theorem isHexChar_ne_newline (c : Char) (h : isHexChar c = true) :
    c ≠ '\n' := by
  rintro rfl
  exact absurd h (by decide)

theorem hex_wfEntry_parts (hash : Str)
    (hhex : ∀ c ∈ hash, isHexChar c = true) :
    (!hash.contains '\n') = true ∧ goodLast hash = true := by
  constructor
  · cases hc : hash.contains '\n' with
    | false => rfl
    | true =>
      exfalso
      have : '\n' ∈ hash := by simpa using hc
      exact isHexChar_ne_newline '\n' (hhex '\n' this) rfl
  · unfold goodLast
    cases hg : hash.getLast? with
    | none => rfl
    | some c =>
      have hmem : c ∈ hash :=
        List.mem_of_mem_getLast? (by simp [hg])
      simp [isHexChar_not_space c (hhex c hmem)]

/-- C2 counterexample: a relative path containing a colon (legal in a POSIX
relative file path) does not survive the `path:hash` round trip — the parser
splits at the first colon, moving the remainder of the path into the digest. -/
theorem serialize_parse_not_roundtrip :
    load_from_content (serializeManifest [("a:b".data, "00".data)]) [] =
      [("a".data, "b:00".data)] ∧
    load_from_content (serializeManifest [("a:b".data, "00".data)]) [] ≠
      [("a:b".data, "00".data)] := by
  decide

/-- C2 amended: for every mapping whose paths contain no colon and no newline,
do not begin with `#` or whitespace, and whose digests consist of hex digit
characters, writing one `path:hash` line per entry (as
`apply_selective_update` writes `FILES.txt`) and re-parsing the result with
`load_from_content` yields exactly the original mapping. -/
theorem serialize_parse_roundtrip (m : List Entry)
    (hnd : (m.map Prod.fst).Nodup)
    (hpath : ∀ e ∈ m,
      ((!e.1.contains ':') && (!e.1.contains '\n') && goodHead e.1) = true)
    (hhex : ∀ e ∈ m, ∀ c ∈ e.2, isHexChar c = true) :
    load_from_content (serializeManifest m) [] = m := by
  apply load_serialize_roundtrip m hnd
  intro e he
  have hp := hpath e he
  simp only [Bool.and_eq_true] at hp
  obtain ⟨hn, hgl⟩ := hex_wfEntry_parts e.2 (hhex e he)
  unfold wfEntry
  simp only [Bool.and_eq_true]
  exact ⟨⟨⟨⟨hp.1.1, hp.1.2⟩, hp.2⟩, hn⟩, hgl⟩

/-- Witness for C2's amended claim at a one-entry mapping. -/
theorem serialize_parse_roundtrip_witness :
    load_from_content (serializeManifest [("a.txt".data, "aa".data)]) [] =
      [("a.txt".data, "aa".data)] :=
  serialize_parse_roundtrip [("a.txt".data, "aa".data)] (by decide)
    (by decide) (by decide)

/-- C10: `Manifest.load_from_content` is total (this embedding of its loop is
a function, matching the Python method whose `try` body cannot raise on a
`str` input and which always returns `True`), its resulting mapping binds
each path at most once, and a path that occurs on several parsed lines is
bound to the digest of the last such line: lookup in the parsed dict agrees
with lookup in the reversed list of raw parsed `(path, hash)` pairs. -/
theorem load_from_content_last_wins (content : Str) :
    ((load_from_content content []).map Prod.fst).Nodup ∧
    ∀ p, dictGet (load_from_content content []) p =
      dictGet (rawEntries content).reverse p := by
  constructor
  · exact load_from_content_keys_nodup content [] (by simp)
  · intro p
    unfold load_from_content rawEntries
    rw [foldl_parseLine_eq, dictGet_foldl_dictInsert]
    simp [dictGet]

/-! # Lemmas about apply_selective_update -/

theorem copyChanged_get (staging : FS) (paths : List Str) (t : FS) (p : Str) :
    dictGet (copyChanged staging paths t).1 p =
      if p ∈ paths then
        match dictGet staging p with
        | some c => some c
        | none => dictGet t p
      else dictGet t p := by
  induction paths generalizing t with
  | nil => simp [copyChanged]
  | cons q rest ih =>
    cases hq : dictGet staging q with
    | some cq =>
      simp only [copyChanged, hq]
      rw [ih]
      by_cases hpr : p ∈ rest
      · cases hsp : dictGet staging p with
        | some c => simp [hpr, hsp]
        | none =>
          have hqp : ¬(q = p) := by
            rintro rfl
            rw [hq] at hsp
            exact absurd hsp (by simp)
          simp [hpr, hsp, dictGet_dictInsert, hqp]
      · by_cases hpq : p = q
        · subst hpq
          simp [hpr, hq, dictGet_dictInsert]
        · have hqp : ¬(q = p) := fun hh => hpq hh.symm
          simp [hpr, hpq, dictGet_dictInsert, hqp]
    | none =>
      simp only [copyChanged, hq]
      rw [ih]
      by_cases hpr : p ∈ rest
      · simp [hpr]
      · by_cases hpq : p = q
        · subst hpq
          simp [hpr, hq]
        · simp [hpr, hpq]

theorem copyChanged_counts (staging : FS) (paths : List Str) (t : FS) :
    (copyChanged staging paths t).2.1 + (copyChanged staging paths t).2.2 =
      paths.length := by
  induction paths generalizing t with
  | nil => simp [copyChanged]
  | cons q rest ih =>
    cases hq : dictGet staging q with
    | some cq =>
      simp only [copyChanged, hq, List.length_cons]
      rw [← ih (dictInsert t q cq)]
      omega
    | none =>
      simp only [copyChanged, hq, List.length_cons]
      rw [← ih t]
      omega

theorem copyChanged_fst_id (staging : FS) (paths : List Str) (t : FS)
    (h : ∀ p ∈ paths, ∀ c, dictGet staging p = some c →
      dictGet t p = some c) :
    (copyChanged staging paths t).1 = t := by
  induction paths generalizing t with
  | nil => simp [copyChanged]
  | cons q rest ih =>
    cases hq : dictGet staging q with
    | some cq =>
      simp only [copyChanged, hq]
      rw [dictInsert_self t q cq (h q (List.mem_cons_self _ _) cq hq)]
      exact ih t fun p hp c hc => h p (List.mem_cons_of_mem _ hp) c hc
    | none =>
      simp only [copyChanged, hq]
      exact ih t fun p hp c hc => h p (List.mem_cons_of_mem _ hp) c hc

theorem apply_get_manifestPath (staging target : FS) (rm : List Entry)
    (hm : manifestPath ∉ rm.map Prod.fst) :
    dictGet (apply_selective_update staging target rm).1 manifestPath =
      some (serializeManifest rm) := by
  simp only [apply_selective_update]
  rw [copyChanged_get, if_neg hm, dictGet_dictInsert, if_pos rfl]

theorem apply_get_staged (staging target : FS) (rm : List Entry) (p c : Str)
    (hp : p ∈ rm.map Prod.fst) (hs : dictGet staging p = some c) :
    dictGet (apply_selective_update staging target rm).1 p = some c := by
  simp only [apply_selective_update]
  rw [copyChanged_get, if_pos hp, hs]

theorem apply_get_unstaged (staging target : FS) (rm : List Entry) (p : Str)
    (hm : manifestPath ∉ rm.map Prod.fst)
    (hp : p ∈ rm.map Prod.fst) (hs : dictGet staging p = none) :
    dictGet (apply_selective_update staging target rm).1 p =
      dictGet target p := by
  simp only [apply_selective_update]
  rw [copyChanged_get, if_pos hp, hs]
  have hpm : ¬(manifestPath = p) := fun hh => hm (hh ▸ hp)
  rw [dictGet_dictInsert, if_neg hpm]
  cases hv : dictGet staging versionPath with
  | none => rfl
  | some v =>
    rw [dictGet_dictInsert, if_neg]
    rintro rfl
    rw [hv] at hs
    exact absurd hs (by simp)

theorem apply_get_versionPath (staging target : FS) (rm : List Entry)
    (v : Str) (hs : dictGet staging versionPath = some v) :
    dictGet (apply_selective_update staging target rm).1 versionPath =
      some v := by
  simp only [apply_selective_update]
  rw [copyChanged_get]
  by_cases hvp : versionPath ∈ rm.map Prod.fst
  · rw [if_pos hvp, hs]
  · rw [if_neg hvp, dictGet_dictInsert,
      if_neg (by decide : ¬(manifestPath = versionPath)), hs,
      dictGet_dictInsert, if_pos rfl]

theorem apply_counts (staging target : FS) (rm : List Entry) :
    (apply_selective_update staging target rm).2.1 +
      (apply_selective_update staging target rm).2.2 = rm.length := by
  simp only [apply_selective_update]
  rw [copyChanged_counts, List.length_map]

/-- C8 counterexample: a remote manifest that lists `FILES.txt` itself as a
payload path.  The update succeeds (the fetched content matches its recorded
digest), but the copy loop then overwrites the just-rewritten manifest file
with the fetched payload, so the target's manifest file does not contain the
remote manifest's entry set. -/
theorem apply_manifest_overwritten :
    (update shaAA oracleSelfManifest true false []).1 = true ∧
    dictGet (update shaAA oracleSelfManifest true false []).2 manifestPath =
      some "hello".data ∧
    "hello".data ≠
      serializeManifest (load_from_content "FILES.txt:aa".data []) := by
  decide

/-- C8 amended: for every apply of a selective update whose remote manifest
does not list `FILES.txt` itself as a payload path: the target's manifest
file is rewritten to exactly the serialized remote entry set; every
remote-manifest path present in staging is copied over the corresponding
target path; every remote-manifest path absent from staging leaves the
corresponding target entry untouched; and the reported updated and skipped
counts sum to the number of remote manifest entries.  (The apply always
reports success.) -/
theorem apply_selective_update_spec (staging target : FS) (rm : List Entry)
    (hm : manifestPath ∉ rm.map Prod.fst) :
    dictGet (apply_selective_update staging target rm).1 manifestPath =
      some (serializeManifest rm) ∧
    (∀ p c, p ∈ rm.map Prod.fst → dictGet staging p = some c →
      dictGet (apply_selective_update staging target rm).1 p = some c) ∧
    (∀ p, p ∈ rm.map Prod.fst → dictGet staging p = none →
      dictGet (apply_selective_update staging target rm).1 p =
        dictGet target p) ∧
    (apply_selective_update staging target rm).2.1 +
      (apply_selective_update staging target rm).2.2 = rm.length :=
  ⟨apply_get_manifestPath staging target rm hm,
    fun p c hp hs => apply_get_staged staging target rm p c hp hs,
    fun p hp hs => apply_get_unstaged staging target rm p hm hp hs,
    apply_counts staging target rm⟩

/-- Witness for C8's amended claim on a concrete one-file selective update. -/
theorem apply_selective_update_spec_witness :
    dictGet (apply_selective_update [("a.txt".data, "body".data)] []
        [("a.txt".data, "aa".data)]).1 manifestPath =
      some (serializeManifest [("a.txt".data, "aa".data)]) :=
  (apply_selective_update_spec [("a.txt".data, "body".data)] []
    [("a.txt".data, "aa".data)] (by decide)).1

/-! # Failure propagation in install and update -/

theorem install_false_target (sha : Str → Str) (oracle : Remote)
    (target : FS) (h : (install sha oracle target).1 = false) :
    (install sha oracle target).2 = target := by
  cases hv : oracle.version with
  | none => simp [install, hv]
  | some v =>
    cases hm : oracle.manifestText with
    | none => simp [install, hv, hm]
    | some mc =>
      cases hf : fetchAll sha oracle (load_from_content mc [])
          (dictInsert [] versionPath v) with
      | none => simp [install, hv, hm, hf]
      | some st => simp [install, hv, hm, hf] at h

theorem update_false_target (sha : Str → Str) (oracle : Remote)
    (force userConfirm : Bool) (target : FS)
    (h : (update sha oracle force userConfirm target).1 = false) :
    (update sha oracle force userConfirm target).2 = target := by
  cases hm : oracle.manifestText with
  | none => simp [update, hm]
  | some mc =>
    cases hd : download_changed_files sha oracle target
        (load_from_content mc []) with
    | none => simp [update, hm, hd]
    | some staging =>
      cases hv : oracle.version with
      | none => simp [update, hm, hd, hv]
      | some v =>
        cases hb : (!force && !userConfirm) with
        | true => simp [update, hm, hd, hv, hb]
        | false => simp [update, hm, hd, hv, hb] at h

theorem fetchAll_fail (sha : Str → Str) (oracle : Remote)
    (entries : List Entry) (st : FS) (p h : Str)
    (hm : (p, h) ∈ entries)
    (hf : oracle.file p = none ∨ ∀ c, oracle.file p = some c → sha c ≠ h) :
    fetchAll sha oracle entries st = none := by
  induction entries generalizing st with
  | nil => simp at hm
  | cons e rest ih =>
    obtain ⟨q, g⟩ := e
    rcases List.mem_cons.mp hm with heq | hmem
    · have h1 : p = q := congrArg Prod.fst heq
      have h2 : h = g := congrArg Prod.snd heq
      subst h1
      subst h2
      simp only [fetchAll]
      cases hof : oracle.file p with
      | none => rfl
      | some c =>
        rcases hf with hf | hf
        · rw [hf] at hof
          exact absurd hof (by simp)
        · have hver : verify_checksum sha (dictInsert st p c) p h = false := by
            unfold verify_checksum
            rw [dictGet_dictInsert, if_pos rfl]
            simp [hf c hof]
          simp [hver]
    · simp only [fetchAll]
      cases hof : oracle.file q with
      | none => rfl
      | some c =>
        by_cases hv : verify_checksum sha (dictInsert st q c) q g = true
        · simp only [hv, if_true]
          exact ih _ hmem
        · simp [hv]

theorem fetchChanged_fail (sha : Str → Str) (oracle : Remote)
    (rm : List Entry) (paths : List Str) (st : FS) (p : Str)
    (hp : p ∈ paths)
    (hf : oracle.file p = none ∨
      ∀ c h, oracle.file p = some c → dictGet rm p = some h → sha c ≠ h) :
    fetchChanged sha oracle rm paths st = none := by
  induction paths generalizing st with
  | nil => simp at hp
  | cons q rest ih =>
    rcases List.mem_cons.mp hp with rfl | hmem
    · simp only [fetchChanged]
      cases hg : dictGet rm p with
      | none => rfl
      | some hh =>
        cases hof : oracle.file p with
        | none => rfl
        | some c =>
          rcases hf with hf | hf
          · rw [hf] at hof
            exact absurd hof (by simp)
          · have hver :
                verify_checksum sha (dictInsert st p c) p hh = false := by
              unfold verify_checksum
              rw [dictGet_dictInsert, if_pos rfl]
              simp [hf c hh hof hg]
            simp [hver]
    · simp only [fetchChanged]
      cases hg : dictGet rm q with
      | none => rfl
      | some g =>
        cases hof : oracle.file q with
        | none => rfl
        | some c =>
          by_cases hv : verify_checksum sha (dictInsert st q c) q g = true
          · simp only [hv, if_true]
            exact ih _ hmem
          · simp [hv]

/-- C6: in both install and update, a failure leaves the previously installed
target tree (manifest file and version marker included) exactly as it was —
the target is mutated only after every fetch and verification has succeeded —
and any single file whose fetch fails or whose downloaded content fails digest
verification makes the whole enclosing operation report failure. -/
theorem fetch_failure_aborts (sha : Str → Str) (oracle : Remote)
    (target : FS) (force userConfirm : Bool) :
    ((install sha oracle target).1 = false →
      (install sha oracle target).2 = target) ∧
    ((update sha oracle force userConfirm target).1 = false →
      (update sha oracle force userConfirm target).2 = target) ∧
    (∀ mc p h, oracle.manifestText = some mc →
      (p, h) ∈ load_from_content mc [] →
      (oracle.file p = none ∨ ∀ c, oracle.file p = some c → sha c ≠ h) →
      (install sha oracle target).1 = false) ∧
    (∀ mc p, oracle.manifestText = some mc →
      p ∈ (compare_with (loadLocalManifest target)
            (load_from_content mc [])).1 →
      (oracle.file p = none ∨
        ∀ c h, oracle.file p = some c →
          dictGet (load_from_content mc []) p = some h → sha c ≠ h) →
      (update sha oracle force userConfirm target).1 = false) := by
  refine ⟨install_false_target sha oracle target,
    update_false_target sha oracle force userConfirm target, ?_, ?_⟩
  · intro mc p h hmc hmem hf
    cases hv : oracle.version with
    | none => simp [install, hv]
    | some v =>
      simp [install, hv, hmc,
        fetchAll_fail sha oracle (load_from_content mc [])
          (dictInsert [] versionPath v) p h hmem hf]
  · intro mc p hmc hmem hf
    have hdc : download_changed_files sha oracle target
        (load_from_content mc []) = none := by
      unfold download_changed_files
      exact fetchChanged_fail sha oracle (load_from_content mc []) _ [] p
        hmem hf
    simp [update, hmc, hdc]

/-- Witness for C6 at a remote whose single listed file fails to download. -/
theorem fetch_failure_aborts_witness :
    (install shaAA oracleNoFiles targetOld).1 = false :=
  (fetch_failure_aborts shaAA oracleNoFiles targetOld false false).2.2.1
    "a.txt:aa".data "a.txt".data "aa".data rfl (by decide) (Or.inl rfl)

/-! # Idempotence of update -/

/-- C9 counterexample: with a remote manifest that lists `FILES.txt` itself,
a first update succeeds but overwrites the target's manifest file with the
fetched payload, so a second run against the unchanged remote recomputes
`changed = ["FILES.txt"]`, not `changed = []`. -/
theorem update_not_idempotent_self_manifest :
    (update shaAA oracleSelfManifest true false []).1 = true ∧
    (compare_with
        (loadLocalManifest (update shaAA oracleSelfManifest true false []).2)
        (load_from_content "FILES.txt:aa".data [])).1 = [manifestPath] := by
  decide

/-- C9 amended: after a successful update whose remote manifest does not list
`FILES.txt` itself as a payload path, a second update run against the
unchanged remote computes an empty changed list (every remote path classified
unchanged, because the manifest written during the first run re-parses to the
remote manifest) and succeeds leaving the target tree byte-identical to its
state after the first run. -/
theorem update_idempotent (sha : Str → Str) (oracle : Remote)
    (force userConfirm : Bool) (target t1 : FS) (mc : Str)
    (hm : oracle.manifestText = some mc)
    (hnot : manifestPath ∉ (load_from_content mc []).map Prod.fst)
    (h1 : update sha oracle force userConfirm target = (true, t1)) :
    (compare_with (loadLocalManifest t1) (load_from_content mc [])).1 = [] ∧
    update sha oracle force userConfirm t1 = (true, t1) := by
  cases hd : download_changed_files sha oracle target
      (load_from_content mc []) with
  | none => simp [update, hm, hd] at h1
  | some staging =>
    cases hv : oracle.version with
    | none => simp [update, hm, hd, hv] at h1
    | some v =>
      cases hb : (!force && !userConfirm) with
      | true => simp [update, hm, hd, hv, hb] at h1
      | false =>
        simp only [update, hm, hd, hv, hb, Bool.false_eq_true, if_false,
          Prod.mk.injEq, true_and] at h1
        have happ1 : (apply_selective_update
            (dictInsert staging versionPath v) target
            (load_from_content mc [])).1 = t1 := h1
        have hsv : dictGet (dictInsert staging versionPath v) versionPath =
            some v := by
          rw [dictGet_dictInsert, if_pos rfl]
        have hT1m : dictGet t1 manifestPath =
            some (serializeManifest (load_from_content mc [])) := by
          rw [← happ1]
          exact apply_get_manifestPath _ target _ hnot
        have hT1v : dictGet t1 versionPath = some v := by
          rw [← happ1]
          exact apply_get_versionPath _ target _ v hsv
        have hnd : ((load_from_content mc []).map Prod.fst).Nodup :=
          load_from_content_keys_nodup mc [] (by simp)
        have hround : load_from_content
            (serializeManifest (load_from_content mc [])) [] =
            load_from_content mc [] :=
          load_serialize_roundtrip _ hnd (load_from_content_wf mc)
        have hlocal : loadLocalManifest t1 = load_from_content mc [] := by
          simp [loadLocalManifest, hT1m, hround]
        have hcmp : compare_with (loadLocalManifest t1)
            (load_from_content mc []) =
            ([], (load_from_content mc []).map Prod.fst) := by
          rw [hlocal]
          refine compare_with_all_match _ _ ?_
          intro e he
          exact dictGet_eq_some_of_mem_nodup _ e.1 e.2 hnd he
        refine ⟨by rw [hcmp], ?_⟩
        have hd2 : download_changed_files sha oracle t1
            (load_from_content mc []) = some [] := by
          unfold download_changed_files
          rw [hcmp]
          rfl
        have hs2 : dictGet (dictInsert [] versionPath v) versionPath =
            some v := by
          rw [dictGet_dictInsert, if_pos rfl]
        have happ2 : (apply_selective_update (dictInsert [] versionPath v) t1
            (load_from_content mc [])).1 = t1 := by
          simp only [apply_selective_update, hs2]
          rw [dictInsert_self t1 versionPath v hT1v,
            dictInsert_self t1 manifestPath _ hT1m]
          apply copyChanged_fst_id
          intro p hp c hc
          rw [dictGet_dictInsert] at hc
          by_cases hvp : versionPath = p
          · subst hvp
            rw [if_pos rfl] at hc
            have hvc : v = c := Option.some.inj hc
            subst hvc
            exact hT1v
          · rw [if_neg hvp] at hc
            simp [dictGet] at hc
        simp [update, hm, hd2, hv, hb, happ2]

/-- Witness for C9's amended claim: a concrete successful one-file update,
run twice. -/
theorem update_idempotent_witness :
    (compare_with (loadLocalManifest treeAfterGood)
        (load_from_content "a.txt:aa".data [])).1 = [] ∧
    update shaAA oracleGood true false treeAfterGood =
      (true, treeAfterGood) :=
  update_idempotent shaAA oracleGood true false [] treeAfterGood
    "a.txt:aa".data rfl (by decide) (by decide)

end Aiassisted
